import Mathlib

/-
Verification development for the mpm eventbus library.

Shallow embedding of:
  * include/mpm/detail/typelist.h       (typelist, for_each_type)
  * include/mpm/eventbus.hpp            (type_erased_subscriber, cookie,
                                         dispatch_typelist, deliver,
                                         adapted_event, basic_eventbus)
  * include/mpm/polymorphic_event.hpp   (detail::event, polymorphic_event)
  * thirdparty leftright.hpp            (basic_leftright, reader registries)

Modelling conventions, stated once here:
  * A C++ type is identified by its std::type_index, modelled by TypeId.
    Distinct types have distinct TypeId values.  detail::adapted_event<E>
    is a distinct type from every user type, hence the adapted constructor.
  * The subscriber table std::unordered_multimap is modelled as a flat
    association list standing for the container iteration order;
    equal_range(k) returns exactly the entries whose key is k, in that
    container order (equal keys are contiguous).  The standard leaves the
    position of a newly emplaced record inside its equivalent-key group
    unspecified; the bus model uses append, which is sound for the count
    and membership properties proved here, and the libstdc++ placement
    (group front) is modelled separately where the order matters.
  * Subscriber identities are addresses of live heap allocations in C++
    (reinterpret_cast of the shared_ptr target), hence nonzero and distinct
    among live records; modelled by a monotone counter starting at 1.
  * The bus is quiescent in every theorem: the Left-Right container holds
    two observationally equal copies of the table (proved for modify in
    this file), so the bus state carries one table.
-/

/-- Runtime type identifier (std::type_index).  user n is the typeid of the
n-th user-declared class type; adapted t is the typeid of
detail::adapted_event<E> where E has typeid t; nullT is
typeid(std::nullptr_t), used by the default-constructed cookie. -/
inductive TypeId where
  | user : Nat → TypeId
  | adapted : TypeId → TypeId
  | nullT : TypeId
deriving DecidableEq, Repr

/-- mpm::typelist terminated by mpm::null_t (the sentinel). -/
inductive Typelist where
  | nullt : Typelist
  | cons : TypeId → Typelist → Typelist
deriving DecidableEq, Repr

/-- The sequence of types T with which for_each_type invokes the functor:
for_each_helper calls f on TL::head and recurses on TL::tail; the null_t
specialization invokes nothing (the sentinel is never visited). -/
def visits : Typelist → List TypeId
  | Typelist.nullt => []
  | Typelist.cons h t => h :: visits t

/-- detail::dispatch_typelist: the effective dispatch list of an event type
with typeid e and declared dispatch_as list.  If e is already the head the
declared list is used as is, otherwise e is prepended.  The C++ template
reads dispatch_as::head, so it only instantiates for a nonempty (cons)
list; the nullt case below is unreachable in compiled C++ code and its
value is never relied on by a theorem without a cons hypothesis. -/
def dispatch_typelist (e : TypeId) : Typelist → Typelist
  | Typelist.cons h t =>
      if h = e then Typelist.cons h t else Typelist.cons e (Typelist.cons h t)
  | Typelist.nullt => Typelist.cons e Typelist.nullt

/-- The two shapes of detail::type_erased_subscriber::model.  staticCast is
the base template (subscribed type derives detail::event): deliver does
static_cast and always invokes the handler.  dynamicCast is the
specialization for subscribed types not deriving detail::event: deliver
does dynamic_cast and skips the handler when the cast fails. -/
inductive Strategy where
  | staticCast : Strategy
  | dynamicCast : Strategy
deriving DecidableEq, Repr

/-- One record of the subscriber table: the multimap key (typeid of the
subscribed-for type), the subscriber identity (type_erased_subscriber::id)
and the erasure shape chosen at subscription time. -/
structure Entry where
  key : TypeId
  sid : Nat
  strategy : Strategy
deriving DecidableEq, Repr

/-- detail::cookie: subscriber identity plus type index. -/
structure Cookie where
  id : Nat
  ti : TypeId
deriving DecidableEq, Repr

/-- The default-constructed cookie: id 0 and typeid(std::nullptr_t). -/
def defaultCookie : Cookie := { id := 0, ti := TypeId.nullT }

/-- Static facts about the user-declared C++ types, as the compiler sees
them: whether a type derives detail::event, its declared dispatch_as
typelist, and the set of types an object whose dynamic type is the given
type can be dynamic_cast to. -/
structure TypeEnv where
  isPoly : TypeId → Bool
  dispatch_as : TypeId → Typelist
  castTargets : TypeId → List TypeId

/-- std::is_base_of<detail::event, T>: detail::adapted_event always derives
detail::event; typeid(nullptr_t) is not a class type at all. -/
def isPolyOf (env : TypeEnv) : TypeId → Bool
  | TypeId.adapted _ => true
  | TypeId.nullT => false
  | t => env.isPoly t

/-- The dispatch_as member: detail::adapted_event<E> declares
dispatch_as = typelist<E> regardless of E. -/
def dispatchAsOf (env : TypeEnv) : TypeId → Typelist
  | TypeId.adapted t => Typelist.cons t Typelist.nullt
  | t => env.dispatch_as t

/-- The erasure shape type_erased_subscriber picks for subscribed type t:
the model base template when t derives detail::event, the dynamic_cast
specialization otherwise. -/
def stratOf (env : TypeEnv) (t : TypeId) : Strategy :=
  if isPolyOf env t then Strategy.staticCast else Strategy.dynamicCast

/-- Whether model::deliver invokes the stored handler, given the set of
types the published object can be dynamic_cast to. -/
def delivers (view : List TypeId) (e : Entry) : Bool :=
  match e.strategy with
  | Strategy.staticCast => true
  | Strategy.dynamicCast => decide (e.key ∈ view)

/-- detail::deliver::operator()<T>: equal_range over the multimap for
typeid(T), then deliver(event) on each record in order; the invoked
handlers are reported by subscriber identity. -/
def deliverAt (subs : List Entry) (view : List TypeId) (t : TypeId) : List Nat :=
  (subs.filter (fun e => decide (e.key = t))).filterMap (fun e =>
    match e.strategy with
    | Strategy.staticCast => some e.sid
    | Strategy.dynamicCast => if e.key ∈ view then some e.sid else none)

/-- for_each_type<TL>(deliver(event, subs)): the deliver functor applied at
each element of the typelist in order; null_t delivers to nothing. -/
def forEachDeliver (subs : List Entry) (view : List TypeId) : Typelist → List Nat
  | Typelist.nullt => []
  | Typelist.cons h t => deliverAt subs view h ++ forEachDeliver subs view t

/-- The polymorphic basic_eventbus::publish overload (enabled when Event
derives detail::event): walk dispatch_typelist<Event> over the table.
view is the dynamic_cast target set of the published object. -/
def publishPoly (env : TypeEnv) (e : TypeId) (view : List TypeId)
    (subs : List Entry) : List Nat :=
  forEachDeliver subs view (dispatch_typelist e (dispatchAsOf env e))

/-- basic_eventbus::publish.  The non-polymorphic overload wraps the event
in detail::adapted_event<Event> (a fresh object whose dynamic type is
adapted e, additionally viewable as the copied Event subobject and its
bases) and republishes it through the polymorphic overload. -/
def publish (env : TypeEnv) (e : TypeId) (view : List TypeId)
    (subs : List Entry) : List Nat :=
  if isPolyOf env e then publishPoly env e view subs
  else publishPoly env (TypeId.adapted e) (TypeId.adapted e :: env.castTargets e) subs

/-- The typelist publish walks for static type e. -/
def chainTl (env : TypeEnv) (e : TypeId) : Typelist :=
  if isPolyOf env e then dispatch_typelist e (dispatchAsOf env e)
  else dispatch_typelist (TypeId.adapted e) (Typelist.cons e Typelist.nullt)

/-- The effective dispatch chain for a publish of static type e, as a list
of type identifiers in delivery order. -/
def dispatch_chain (env : TypeEnv) (e : TypeId) : List TypeId :=
  visits (chainTl env e)

/-- The dynamic_cast target set the delivered object presents to handlers,
for a publish of static type e. -/
def publishView (env : TypeEnv) (e : TypeId) (view : List TypeId) : List TypeId :=
  if isPolyOf env e then view else TypeId.adapted e :: env.castTargets e

/-- The subscriber table together with the next fresh subscriber identity
(addresses are nonzero, so identities start at 1 and are never reused
while any record is live; the model never reuses them at all). -/
structure BusState where
  subs : List Entry
  nextId : Nat
deriving DecidableEq, Repr

/-- A newly constructed bus: empty table. -/
def initState : BusState := { subs := [], nextId := 1 }

/-- basic_eventbus::subscribe<Event>: build the type-erased record (its
shape fixed by stratOf), emplace it under typeid(Event) and return the
cookie (identity, typeid(Event)).  Emplace is modelled as append; the
standard does not fix where the record lands inside its equivalent-key
group, so the list order carries no within-key delivery-order guarantee
(see emplaceStdcxx for the libstdc++ placement). -/
def subscribe (env : TypeEnv) (t : TypeId) (st : BusState) : Cookie × BusState :=
  ({ id := st.nextId, ti := t },
   { subs := st.subs ++ [{ key := t, sid := st.nextId, strategy := stratOf env t }],
     nextId := st.nextId + 1 })

/-- The loop body of basic_eventbus::unsubscribe: scan equal_range(c.ti)
and erase the first record whose id matches, then return.  Scanning the
whole list while requiring the key to match is the same computation,
because equal_range contains exactly the key-matching entries in order. -/
def eraseCookie (ti : TypeId) (id : Nat) : List Entry → List Entry
  | [] => []
  | e :: rest =>
      if e.key = ti ∧ e.sid = id then rest else e :: eraseCookie ti id rest

/-- basic_eventbus::unsubscribe. -/
def unsubscribe (c : Cookie) (st : BusState) : BusState :=
  { st with subs := eraseCookie c.ti c.id st.subs }

/-- The position std::unordered_multimap::emplace actually gives a new
record on the toolchain the repository targets (g++/libstdc++): the
standard leaves the position within an equivalent-key group unspecified,
and libstdc++ links the new node immediately before the first existing
node with an equivalent key, so the group is iterated most-recently
inserted first; a record with a fresh key lands in its own bucket (its
position relative to other keys is immaterial, modelled as append). -/
def emplaceStdcxx (l : List Entry) (e : Entry) : List Entry :=
  match l with
  | [] => [e]
  | x :: rest =>
      if x.key = e.key then e :: x :: rest
      else x :: emplaceStdcxx rest e

/-- A completed table-mutating bus operation. -/
inductive Op where
  | sub : TypeId → Op
  | unsub : Cookie → Op
deriving DecidableEq, Repr

def applyOp (env : TypeEnv) (st : BusState) : Op → BusState
  | Op.sub t => (subscribe env t st).2
  | Op.unsub c => unsubscribe c st

/-- Run a sequence of completed subscribe/unsubscribe operations. -/
def runOps (env : TypeEnv) (st : BusState) (ops : List Op) : BusState :=
  ops.foldl (applyOp env) st

/-- subscribe<Event> static_asserts std::is_class<Event>: the one type id a
subscription can never carry is typeid(std::nullptr_t). -/
def SubClassOK : Op → Prop
  | Op.sub t => t ≠ TypeId.nullT
  | Op.unsub _ => True

instance decSubClassOK : DecidablePred SubClassOK
  | Op.sub t => inferInstanceAs (Decidable (t ≠ TypeId.nullT))
  | Op.unsub _ => inferInstanceAs (Decidable True)

/-- Every subscribe in the sequence names a class type. -/
def OpsWF (ops : List Op) : Prop := ∀ op ∈ ops, SubClassOK op

/-! ## Left-Right container (leftright.hpp) -/

/-- The m_leftright flag naming the side readers observe. -/
inductive LR where
  | read_left : LR
  | read_right : LR
deriving DecidableEq, Repr

/-- The basic_leftright fields relevant to sequential behaviour: the two
copies, the active-side flag and the registry index (m_registry_index). -/
structure LeftRightState (T : Type) where
  m_left : T
  m_right : T
  m_leftright : LR
  m_registry_index : Fin 2

/-- Construction: every basic_leftright constructor initializes m_left from
the seed or forwarded args and m_right as a copy of m_left, so both copies
start observationally equal; the flag starts at read_left and the registry
index at 0. -/
def mkLeftRight {T : Type} (seed : T) : LeftRightState T :=
  { m_left := seed, m_right := seed, m_leftright := LR.read_left,
    m_registry_index := 0 }

/-- The copy a reader observes given the current m_leftright flag. -/
def activeCopy {T : Type} (s : LeftRightState T) : T :=
  match s.m_leftright with
  | LR.read_left => s.m_left
  | LR.read_right => s.m_right

/-- next = (current + 1) & 0x1 in toggle_reader_registry. -/
def toggleIdx (i : Fin 2) : Fin 2 :=
  ⟨(i.val + 1) % 2, Nat.mod_lt _ (by decide)⟩

/-- basic_leftright::modify: apply the functor to the inactive copy, flip
m_leftright, toggle the reader registries (after draining readers), then
apply the functor to the other copy.  The C++ contract requires the
functor to apply the identical observable mutation to both copies, which
a pure Lean function does by construction; modify returns the result of
the second application, which does not affect the state and is omitted. -/
def lrModify {T : Type} (f : T → T) (s : LeftRightState T) : LeftRightState T :=
  match s.m_leftright with
  | LR.read_left =>
      { m_left := f s.m_left, m_right := f s.m_right,
        m_leftright := LR.read_right,
        m_registry_index := toggleIdx s.m_registry_index }
  | LR.read_right =>
      { m_left := f s.m_left, m_right := f s.m_right,
        m_leftright := LR.read_left,
        m_registry_index := toggleIdx s.m_registry_index }

/-- A sequence of modify calls. -/
def runModifies {T : Type} (fs : List (T → T)) (s : LeftRightState T) :
    LeftRightState T :=
  fs.foldl (fun st f => lrModify f st) s

/-- An arrive or depart on reader registry i (m_reader_registries[i]). -/
inductive RegEvent where
  | arrive : Fin 2 → RegEvent
  | depart : Fin 2 → RegEvent
deriving DecidableEq, Repr

/-- Contribution of one registry event to the net count of registry j. -/
def contrib (j : Fin 2) : RegEvent → Int
  | RegEvent.arrive i => if i = j then 1 else 0
  | RegEvent.depart i => if i = j then -1 else 0

/-- Net arrive/depart count of registry j over a trace. -/
def net (tr : List RegEvent) (j : Fin 2) : Int :=
  (tr.map (contrib j)).sum

/-- basic_leftright::observe.  The registry index is loaded once; the
scoped_read_indication constructor arrives on that registry and its
destructor departs the registry reference captured at construction (the
index is not re-read), running on every scope exit, including exception
unwinding out of the functor.  The functor returns the registry events it
performs itself (nested observe calls) and either a value or the
exception it escapes with; neither changes the bracketing. -/
def observe {T ε α : Type} (s : LeftRightState T)
    (f : T → List RegEvent × Except ε α) : List RegEvent × Except ε α :=
  (RegEvent.arrive s.m_registry_index ::
      (f (activeCopy s)).1 ++ [RegEvent.depart s.m_registry_index],
   (f (activeCopy s)).2)

/-- Shapes of nested observe activity on one thread: nil does no call;
call body rest performs one observe whose functor performs body, then
performs rest. -/
inductive CallTree where
  | nil : CallTree
  | call : CallTree → CallTree → CallTree

/-- The registry-event trace of a call tree against a fixed container
state (single thread, no concurrent writer). -/
def traceOf {T : Type} (s : LeftRightState T) : CallTree → List RegEvent
  | CallTree.nil => []
  | CallTree.call body rest =>
      (observe (ε := Unit) s (fun _ => (traceOf s body, Except.ok ()))).1
        ++ traceOf s rest

/-! ## Counting helpers -/

/-- Number of occurrences of a in l. -/
def countOf {α : Type} [DecidableEq α] (a : α) : List α → Nat
  | [] => 0
  | x :: xs => (if x = a then 1 else 0) + countOf a xs

/-- Facts holding in every bus state reached by completed operations:
records carry the erasure shape subscribe chose for their key, identities
are positive, below the allocation counter, and pairwise distinct. -/
structure BusInv (env : TypeEnv) (st : BusState) : Prop where
  strat : ∀ e ∈ st.subs, e.strategy = stratOf env e.key
  bound : ∀ e ∈ st.subs, e.sid < st.nextId
  pos : ∀ e ∈ st.subs, 1 ≤ e.sid
  nodup : (st.subs.map Entry.sid).Nodup
  nextPos : 1 ≤ st.nextId

/-- The erase condition of the unsubscribe loop. -/
def matchesCookie (c : Cookie) (e : Entry) : Prop :=
  e.key = c.ti ∧ e.sid = c.id

instance decMatchesCookie (c : Cookie) : DecidablePred (matchesCookie c) :=
  fun e => inferInstanceAs (Decidable (e.key = c.ti ∧ e.sid = c.id))

/-- The delivery sequence in chain-major order: for each dispatch-chain
element in order (most-derived first), the key-matching records in their
table (equal_range) order, keeping those whose delivery strategy lets the
published object through.  The table order within a key is whatever the
container produced; it is not claimed to be insertion order. -/
def equalRangeOrderSpec (env : TypeEnv) (e : TypeId) (view : List TypeId)
    (subs : List Entry) : List Nat :=
  (dispatch_chain env e).flatMap (fun k =>
    (subs.filter (fun x =>
      decide (x.key = k) && delivers (publishView env e view) x)).map
        Entry.sid)

/-- Type ids of the event types declared in test/test_eventbus.cpp, plus a
plain parent/child pair with undeclared inheritance. -/
def baseTid : TypeId := TypeId.user 0

def derivedTid : TypeId := TypeId.user 1

def veryDerivedTid : TypeId := TypeId.user 2

def plainTid : TypeId := TypeId.user 3

def plainParentTid : TypeId := TypeId.user 4

def plainChildTid : TypeId := TypeId.user 5

/-- The compile-time facts for the test event types: base_event and
derived_event use mpm::polymorphic_event (derived_event with base_event as
parent); very_derived_event inherits derived_event by plain C++
inheritance, so it is polymorphic and inherits the dispatch_as of
derived_event unchanged; non_polymorphic_event, PlainParent and PlainChild
declare nothing; PlainChild publicly derives PlainParent. -/
def testEnv : TypeEnv :=
  { isPoly := fun t =>
      if t = baseTid then true
      else if t = derivedTid then true
      else if t = veryDerivedTid then true
      else false,
    dispatch_as := fun t =>
      if t = baseTid then Typelist.cons baseTid Typelist.nullt
      else if t = derivedTid then
        Typelist.cons derivedTid (Typelist.cons baseTid Typelist.nullt)
      else if t = veryDerivedTid then
        Typelist.cons derivedTid (Typelist.cons baseTid Typelist.nullt)
      else Typelist.nullt,
    castTargets := fun t =>
      if t = plainTid then [plainTid]
      else if t = plainChildTid then [plainChildTid, plainParentTid]
      else if t = plainParentTid then [plainParentTid]
      else [] }

/-! ## Helper lemmas -/

theorem countOf_append {α : Type} [DecidableEq α] (a : α) (l₁ l₂ : List α) :
    countOf a (l₁ ++ l₂) = countOf a l₁ + countOf a l₂ := by
  induction l₁ with
  | nil => simp [countOf]
  | cons x xs ih => simp [countOf, ih]; ring

theorem countOf_eq_zero_of_not_mem {α : Type} [DecidableEq α] {a : α}
    {l : List α} (h : a ∉ l) : countOf a l = 0 := by
  induction l with
  | nil => rfl
  | cons x xs ih =>
      simp only [List.mem_cons, not_or] at h
      simp [countOf, Ne.symm h.1, ih h.2]

theorem mem_of_countOf_pos {α : Type} [DecidableEq α] {a : α} {l : List α}
    (h : countOf a l ≠ 0) : a ∈ l := by
  by_contra hm
  exact h (countOf_eq_zero_of_not_mem hm)

/-! ## Invariants of reachable bus states -/

theorem BusInv_init (env : TypeEnv) : BusInv env initState := by
  constructor <;> simp [initState]

theorem eraseCookie_sublist (ti : TypeId) (id : Nat) (l : List Entry) :
    List.Sublist (eraseCookie ti id l) l := by
  induction l with
  | nil => simp [eraseCookie]
  | cons e rest ih =>
      rw [eraseCookie]
      split
      · exact List.sublist_cons_self e rest
      · exact List.Sublist.cons₂ e ih

theorem BusInv_subscribe {env : TypeEnv} {st : BusState} (h : BusInv env st)
    (t : TypeId) : BusInv env (subscribe env t st).2 := by
  obtain ⟨hs, hb, hp, hn, hx⟩ := h
  refine ⟨?_, ?_, ?_, ?_, ?_⟩
  · intro e he
    rcases List.mem_append.mp he with h1 | h1
    · exact hs e h1
    · rcases List.mem_singleton.mp h1 with rfl; rfl
  · intro e he
    rcases List.mem_append.mp he with h1 | h1
    · exact Nat.lt_succ_of_lt (hb e h1)
    · rcases List.mem_singleton.mp h1 with rfl
      exact Nat.lt_succ_self _
  · intro e he
    rcases List.mem_append.mp he with h1 | h1
    · exact hp e h1
    · rcases List.mem_singleton.mp h1 with rfl; exact hx
  · rw [subscribe]
    simp only [List.map_append, List.map_cons, List.map_nil]
    rw [List.nodup_append]
    refine ⟨hn, List.nodup_singleton _, ?_⟩
    intro a ha hmem
    rcases List.mem_singleton.mp hmem with rfl
    rcases List.mem_map.mp ha with ⟨x, hxm, hxe⟩
    exact Nat.lt_irrefl st.nextId (hxe ▸ hb x hxm)
  · exact Nat.le_succ_of_le hx

theorem BusInv_unsubscribe {env : TypeEnv} {st : BusState} (h : BusInv env st)
    (c : Cookie) : BusInv env (unsubscribe c st) := by
  obtain ⟨hs, hb, hp, hn, hx⟩ := h
  have hsub := eraseCookie_sublist c.ti c.id st.subs
  have hmem : ∀ e ∈ eraseCookie c.ti c.id st.subs, e ∈ st.subs :=
    fun e he => hsub.subset he
  exact ⟨fun e he => hs e (hmem e he),
    fun e he => hb e (hmem e he),
    fun e he => hp e (hmem e he),
    hn.sublist (hsub.map Entry.sid),
    hx⟩

theorem BusInv_apply {env : TypeEnv} {st : BusState} (h : BusInv env st)
    (op : Op) : BusInv env (applyOp env st op) := by
  cases op with
  | sub t => exact BusInv_subscribe h t
  | unsub c => exact BusInv_unsubscribe h c

theorem BusInv_run {env : TypeEnv} {st : BusState} (h : BusInv env st)
    (ops : List Op) : BusInv env (runOps env st ops) := by
  induction ops generalizing st with
  | nil => exact h
  | cons op rest ih => exact ih (BusInv_apply h op)

/-! ## Delivery counting lemmas -/

theorem deliverAt_eq (subs : List Entry) (view : List TypeId) (t : TypeId) :
    deliverAt subs view t =
      (subs.filter (fun e => decide (e.key = t) && delivers view e)).map
        Entry.sid := by
  induction subs with
  | nil => rfl
  | cons e rest ih =>
      obtain ⟨k, s, str⟩ := e
      simp only [deliverAt, List.filter_cons] at ih ⊢
      by_cases hk : k = t
      · subst hk
        cases str with
        | staticCast => simp [delivers, List.filterMap_cons, ih]
        | dynamicCast =>
            by_cases hv : k ∈ view <;>
              simp [delivers, hv, List.filterMap_cons, ih]
      · cases str with
        | staticCast => simp [hk, delivers, ih]
        | dynamicCast => simp [hk, delivers, ih]

theorem countOf_map_sid_filter {subs : List Entry}
    (hnd : (subs.map Entry.sid).Nodup) {e : Entry} (he : e ∈ subs)
    (p : Entry → Bool) :
    countOf e.sid ((subs.filter p).map Entry.sid) = if p e then 1 else 0 := by
  induction subs with
  | nil => cases he
  | cons a rest ih =>
      rw [List.map_cons, List.nodup_cons] at hnd
      obtain ⟨ha, hnd2⟩ := hnd
      rcases List.mem_cons.mp he with rfl | hrest
      · have hz : countOf e.sid ((rest.filter p).map Entry.sid) = 0 := by
          apply countOf_eq_zero_of_not_mem
          intro hmem
          rcases List.mem_map.mp hmem with ⟨x, hx, hxe⟩
          exact ha (List.mem_map.mpr ⟨x, (List.mem_filter.mp hx).1, hxe⟩)
        by_cases hp : p e = true
        · simp [List.filter_cons, hp, countOf, hz]
        · simp [List.filter_cons, hp, hz]
      · have hne : a.sid ≠ e.sid := by
          intro hsid
          exact ha (hsid ▸ List.mem_map.mpr ⟨e, hrest, rfl⟩)
        by_cases hp : p a = true
        · simp [List.filter_cons, hp, countOf, hne, ih hnd2 hrest]
        · simp [List.filter_cons, hp, ih hnd2 hrest]

theorem countOf_forEachDeliver {subs : List Entry} {view : List TypeId}
    (hnd : (subs.map Entry.sid).Nodup) {e : Entry} (he : e ∈ subs)
    (tl : Typelist) :
    countOf e.sid (forEachDeliver subs view tl) =
      if delivers view e then countOf e.key (visits tl) else 0 := by
  induction tl with
  | nullt => cases hd : delivers view e <;> simp [forEachDeliver, visits, countOf, hd]
  | cons h t ih =>
      have hhead : countOf e.sid (deliverAt subs view h) =
          if (decide (e.key = h) && delivers view e) then 1 else 0 := by
        rw [deliverAt_eq]
        exact countOf_map_sid_filter hnd he _
      rw [forEachDeliver, countOf_append, hhead, ih]
      by_cases hd : delivers view e = true <;> by_cases hk : e.key = h
      · simp [visits, countOf, hd, hk]
      · have hk2 : ¬ h = e.key := fun hh => hk hh.symm
        simp [visits, countOf, hd, hk2, hk]
      · simp [visits, countOf, hd, hk]
      · simp [visits, countOf, hd]

theorem mem_forEachDeliver {subs : List Entry} {view : List TypeId}
    {s : Nat} (tl : Typelist) (hs : s ∈ forEachDeliver subs view tl) :
    s ∈ subs.map Entry.sid := by
  induction tl with
  | nullt => cases hs
  | cons h t ih =>
      rw [forEachDeliver] at hs
      rcases List.mem_append.mp hs with h1 | h1
      · rw [deliverAt_eq] at h1
        rcases List.mem_map.mp h1 with ⟨x, hx, hxe⟩
        exact List.mem_map.mpr ⟨x, (List.mem_filter.mp hx).1, hxe⟩
      · exact ih h1

theorem publish_eq_forEach (env : TypeEnv) (e : TypeId) (view : List TypeId)
    (subs : List Entry) :
    publish env e view subs =
      forEachDeliver subs (publishView env e view) (chainTl env e) := by
  by_cases h : isPolyOf env e = true <;>
    simp [publish, publishPoly, chainTl, publishView, dispatchAsOf, h]

theorem count_publish (env : TypeEnv) (e : TypeId) (view : List TypeId)
    {subs : List Entry} (hnd : (subs.map Entry.sid).Nodup) {x : Entry}
    (hx : x ∈ subs) :
    countOf x.sid (publish env e view subs) =
      if delivers (publishView env e view) x
        then countOf x.key (dispatch_chain env e) else 0 := by
  rw [publish_eq_forEach, dispatch_chain]
  exact countOf_forEachDeliver hnd hx _

theorem mem_publish (env : TypeEnv) (e : TypeId) (view : List TypeId)
    {subs : List Entry} {s : Nat} (hs : s ∈ publish env e view subs) :
    s ∈ subs.map Entry.sid := by
  rw [publish_eq_forEach] at hs
  exact mem_forEachDeliver _ hs

/-! ## Unsubscribe helper lemmas -/

theorem eraseCookie_no_match {ti : TypeId} {id : Nat} {l : List Entry}
    (h : ∀ e ∈ l, ¬(e.key = ti ∧ e.sid = id)) : eraseCookie ti id l = l := by
  induction l with
  | nil => rfl
  | cons e rest ih =>
      rw [eraseCookie, if_neg (h e (List.mem_cons_self e rest))]
      rw [ih (fun x hx => h x (List.mem_cons_of_mem e hx))]

theorem eraseCookie_first (ti : TypeId) (id : Nat) (pre : List Entry)
    (e : Entry) (post : List Entry)
    (hpre : ∀ x ∈ pre, ¬(x.key = ti ∧ x.sid = id))
    (he : e.key = ti ∧ e.sid = id) :
    eraseCookie ti id (pre ++ e :: post) = pre ++ post := by
  induction pre with
  | nil => rw [List.nil_append, eraseCookie, if_pos he, List.nil_append]
  | cons a rest ih =>
      rw [List.cons_append, eraseCookie,
        if_neg (hpre a (List.mem_cons_self a rest)),
        ih (fun x hx => hpre x (List.mem_cons_of_mem a hx)), List.cons_append]

/-- Any list containing a match decomposes at its first match. -/
theorem exists_first_match {p : Entry → Prop} [DecidablePred p]
    {l : List Entry} (h : ∃ e ∈ l, p e) :
    ∃ pre e post, l = pre ++ e :: post ∧ p e ∧ ∀ x ∈ pre, ¬ p x := by
  induction l with
  | nil => rcases h with ⟨e, he, _⟩; cases he
  | cons a rest ih =>
      by_cases ha : p a
      · exact ⟨[], a, rest, rfl, ha, fun x hx => absurd hx (List.not_mem_nil x)⟩
      · have hrest : ∃ e ∈ rest, p e := by
          rcases h with ⟨e, he, hpe⟩
          rcases List.mem_cons.mp he with rfl | hm
          · exact absurd hpe ha
          · exact ⟨e, hm, hpe⟩
        rcases ih hrest with ⟨pre, e, post, hl, hpe, hpre⟩
        refine ⟨a :: pre, e, post, by rw [hl, List.cons_append], hpe, ?_⟩
        intro x hx
        rcases List.mem_cons.mp hx with rfl | hm
        · exact ha
        · exact hpre x hm

theorem eraseCookie_twice {c : Cookie} {l : List Entry}
    (hnd : (l.map Entry.sid).Nodup) :
    eraseCookie c.ti c.id (eraseCookie c.ti c.id l) =
      eraseCookie c.ti c.id l := by
  induction l with
  | nil => rfl
  | cons e rest ih =>
      rw [List.map_cons, List.nodup_cons] at hnd
      obtain ⟨hh, hnd2⟩ := hnd
      rw [eraseCookie]
      split
      · next hm =>
          apply eraseCookie_no_match
          intro x hx hmx
          exact hh (List.mem_map.mpr ⟨x, hx, hmx.2.trans hm.2.symm⟩)
      · next hm =>
          rw [eraseCookie, if_neg hm, ih hnd2]

/-! ## Freshness of identities across later operations -/

theorem fresh_run (env : TypeEnv) (ops : List Op) (st : BusState) (x : Nat)
    (hx : x < st.nextId) (hnm : x ∉ st.subs.map Entry.sid) :
    x < (runOps env st ops).nextId ∧
      x ∉ (runOps env st ops).subs.map Entry.sid := by
  induction ops generalizing st with
  | nil => exact ⟨hx, hnm⟩
  | cons op rest ih =>
      cases op with
      | sub t =>
          refine ih (subscribe env t st).2 (Nat.lt_succ_of_lt hx) ?_
          rw [subscribe]
          simp only [List.map_append, List.map_cons, List.map_nil]
          intro hmem
          rcases List.mem_append.mp hmem with h1 | h1
          · exact hnm h1
          · rcases List.mem_singleton.mp h1 with rfl
            exact Nat.lt_irrefl _ hx
      | unsub c =>
          refine ih (unsubscribe c st) hx ?_
          intro hmem
          apply hnm
          rcases List.mem_map.mp hmem with ⟨y, hy, hye⟩
          exact List.mem_map.mpr
            ⟨y, (eraseCookie_sublist c.ti c.id st.subs).subset hy, hye⟩

theorem nextId_mono (env : TypeEnv) (ops : List Op) (st : BusState) :
    st.nextId ≤ (runOps env st ops).nextId := by
  induction ops generalizing st with
  | nil => exact Nat.le_refl _
  | cons op rest ih =>
      cases op with
      | sub t => exact Nat.le_trans (Nat.le_succ _) (ih (subscribe env t st).2)
      | unsub c => exact ih (unsubscribe c st)

/-- A record whose identity predates a run of operations was already in
the table before the run: later subscriptions only create records with
identities at or above the allocation counter. -/
theorem mem_run_low_sid (env : TypeEnv) (ops : List Op) :
    ∀ st : BusState, ∀ e ∈ (runOps env st ops).subs,
      e.sid < st.nextId → e ∈ st.subs := by
  induction ops with
  | nil => intro st e he _; exact he
  | cons op rest ih =>
      intro st e he hlow
      cases op with
      | sub t =>
          have he2 : e ∈ (subscribe env t st).2.subs :=
            ih (subscribe env t st).2 e he (Nat.lt_succ_of_lt hlow)
          simp only [subscribe] at he2
          rcases List.mem_append.mp he2 with h1 | h1
          · exact h1
          · rcases List.mem_singleton.mp h1 with rfl
            exact absurd hlow (Nat.lt_irrefl _)
      | unsub c =>
          have he2 := ih (unsubscribe c st) e he hlow
          exact (eraseCookie_sublist c.ti c.id st.subs).subset he2

/-- After the erase loop runs for (ti, id) on a table with pairwise
distinct identities in which every record carrying identity id sits under
key ti, no record with identity id remains. -/
theorem eraseCookie_sid_gone {ti : TypeId} {id : Nat} {l : List Entry}
    (hnd : (l.map Entry.sid).Nodup)
    (hkey : ∀ e ∈ l, e.sid = id → e.key = ti) :
    id ∉ (eraseCookie ti id l).map Entry.sid := by
  induction l with
  | nil => simp [eraseCookie]
  | cons e rest ih =>
      rw [List.map_cons, List.nodup_cons] at hnd
      obtain ⟨hh, hnd2⟩ := hnd
      rw [eraseCookie]
      split
      · next hm =>
          intro hmem
          rcases List.mem_map.mp hmem with ⟨y, hy, hye⟩
          apply hh
          rw [hm.2]
          exact List.mem_map.mpr ⟨y, hy, hye⟩
      · next hm =>
          intro hmem
          rcases List.mem_map.mp hmem with ⟨y, hy, hye⟩
          rcases List.mem_cons.mp hy with rfl | hy2
          · exact hm ⟨hkey y (List.mem_cons_self y rest) hye, hye⟩
          · exact ih hnd2
              (fun x hx hs => hkey x (List.mem_cons_of_mem e hx) hs)
              (List.mem_map.mpr ⟨y, hy2, hye⟩)

/-! ## Miscellaneous helpers -/

/-- detail::adapted_event<E> is a different type from E itself, so their
type indices differ. -/
theorem adapted_ne (t : TypeId) : TypeId.adapted t ≠ t := by
  induction t with
  | user n => intro h; exact TypeId.noConfusion h
  | adapted s ih => intro h; injection h with h2; exact ih h2
  | nullT => intro h; exact TypeId.noConfusion h

theorem sublist_middle {α : Type} (l₁ l₂ l₃ : List α) :
    List.Sublist l₂ (l₁ ++ l₂ ++ l₃) := by
  have h1 : List.Sublist l₂ (l₂ ++ l₃) := List.sublist_append_left _ _
  have h2 : List.Sublist (l₂ ++ l₃) (l₁ ++ (l₂ ++ l₃)) :=
    List.sublist_append_right _ _
  rw [List.append_assoc]
  exact h1.trans h2

theorem pair_sublist {α : Type} (a b : α) (xs ys zs : List α) :
    List.Sublist [a, b] (xs ++ a :: (ys ++ b :: zs)) := by
  have hb : List.Sublist [b] (ys ++ b :: zs) :=
    List.Sublist.trans (List.Sublist.cons₂ b (List.nil_sublist zs))
      (List.sublist_append_right ys _)
  have hab : List.Sublist [a, b] (a :: (ys ++ b :: zs)) :=
    List.Sublist.cons₂ a hb
  exact hab.trans (List.sublist_append_right xs _)

theorem forEachDeliver_decompose (subs : List Entry) (view : List TypeId)
    (k : TypeId) (tl : Typelist) (hk : k ∈ visits tl) :
    ∃ l₁ l₂, forEachDeliver subs view tl =
      l₁ ++ deliverAt subs view k ++ l₂ := by
  induction tl with
  | nullt => cases hk
  | cons h t ih =>
      rcases List.mem_cons.mp hk with rfl | hm
      · exact ⟨[], forEachDeliver subs view t, by rw [forEachDeliver]; simp⟩
      · rcases ih hm with ⟨l₁, l₂, hl⟩
        exact ⟨deliverAt subs view h ++ l₁, l₂, by
          rw [forEachDeliver, hl]; simp [List.append_assoc]⟩

theorem forEachDeliver_eq_flatMap (subs : List Entry) (view : List TypeId)
    (tl : Typelist) :
    forEachDeliver subs view tl =
      (visits tl).flatMap (deliverAt subs view) := by
  induction tl with
  | nullt => rfl
  | cons h t ih => rw [forEachDeliver, visits, List.flatMap_cons, ih]


theorem dispatch_chain_nonpoly {env : TypeEnv} {e : TypeId}
    (hp : isPolyOf env e = false) :
    dispatch_chain env e = [TypeId.adapted e, e] := by
  rw [dispatch_chain, chainTl, if_neg (by rw [hp]; exact Bool.false_ne_true)]
  rw [dispatch_typelist, if_neg (Ne.symm (adapted_ne e))]
  rfl

theorem publishView_nonpoly {env : TypeEnv} {e : TypeId}
    (hp : isPolyOf env e = false) (view : List TypeId) :
    publishView env e view = TypeId.adapted e :: env.castTargets e := by
  rw [publishView, if_neg (by rw [hp]; exact Bool.false_ne_true)]

theorem publishView_poly {env : TypeEnv} {e : TypeId}
    (hp : isPolyOf env e = true) (view : List TypeId) :
    publishView env e view = view := by
  rw [publishView, if_pos hp]

theorem net_append (l₁ l₂ : List RegEvent) (j : Fin 2) :
    net (l₁ ++ l₂) j = net l₁ j + net l₂ j := by
  simp [net, List.map_append, List.sum_append]

theorem net_bracket (i : Fin 2) (l : List RegEvent) (j : Fin 2) :
    net (RegEvent.arrive i :: (l ++ [RegEvent.depart i])) j = net l j := by
  simp only [net, List.map_cons, List.map_append, List.sum_cons,
    List.sum_append, List.map_nil, List.sum_nil, contrib]
  by_cases h : i = j <;> simp [h]

/-! ## Claims -/

/-- C2: For every functor that applies the identical observable mutation to
both copies (a pure function in the model), after modify returns the left
and right copies of the protected value are observationally equal, and
this holds after every sequence of modify calls starting from
construction, where both copies are initialized equal. -/
theorem modify_keeps_copies_equal (T : Type) (seed : T) (fs : List (T → T)) :
    (runModifies fs (mkLeftRight seed)).m_left =
      (runModifies fs (mkLeftRight seed)).m_right := by
  suffices h : ∀ s : LeftRightState T, s.m_left = s.m_right →
      (runModifies fs s).m_left = (runModifies fs s).m_right by
    exact h (mkLeftRight seed) rfl
  induction fs with
  | nil => intro s hs; exact hs
  | cons f rest ih =>
      intro s hs
      have hstep : (lrModify f s).m_left = (lrModify f s).m_right := by
        cases hlr : s.m_leftright <;> simp [lrModify, hlr, hs]
      have hrun : runModifies (f :: rest) s = runModifies rest (lrModify f s) :=
        rfl
      rw [hrun]
      exact ih (lrModify f s) hstep

/-- C8: Every observe performs exactly one arrive and one matching depart
on the registry selected by reading the registry index once on entry (the
trace brackets the functor trace with arrive and depart on that same
index, also when the functor exits with an exception), its net effect on
every registry equals the functor traces own, and across any number of
nested observe calls on a single thread the net arrive/depart count of
every registry is zero on exit. -/
theorem observe_registry_balanced (T ε α : Type) (s : LeftRightState T)
    (f : T → List RegEvent × Except ε α) :
    (observe s f).1 =
      RegEvent.arrive s.m_registry_index ::
        ((f (activeCopy s)).1 ++ [RegEvent.depart s.m_registry_index])
    ∧ (∀ j : Fin 2, net (observe s f).1 j = net (f (activeCopy s)).1 j)
    ∧ (∀ tr : CallTree, ∀ j : Fin 2, net (traceOf s tr) j = 0) := by
  refine ⟨rfl, fun j => net_bracket _ _ j, ?_⟩
  intro tr
  induction tr with
  | nil => intro j; simp [traceOf, net]
  | call body rest ihb ihr =>
      intro j
      rw [traceOf, net_append]
      have hbody :
          net (observe (ε := Unit) s
            (fun _ => (traceOf s body, Except.ok ()))).1 j =
          net (traceOf s body) j := net_bracket _ _ j
      rw [hbody, ihb j, ihr j]
      simp

/-- C10: Unsubscribing a default-constructed cookie is a no-op in every
reachable bus state.  The default cookie carries id 0 and the type index
of std::nullptr_t; no live record has identity 0 because identities come
from addresses of live heap-allocated erasure records (identities are at
least 1 in the model), so the erase loop never matches. -/
theorem default_cookie_unsubscribe_noop (env : TypeEnv) (ops : List Op) :
    unsubscribe defaultCookie (runOps env initState ops) =
      runOps env initState ops
    ∧ defaultCookie.id = 0 ∧ defaultCookie.ti = TypeId.nullT := by
  refine ⟨?_, rfl, rfl⟩
  have hinv := BusInv_run (BusInv_init env) ops
  have hnm : ∀ e ∈ (runOps env initState ops).subs,
      ¬(e.key = defaultCookie.ti ∧ e.sid = defaultCookie.id) := by
    intro e he hmx
    have hpos := hinv.pos e he
    rw [hmx.2] at hpos
    exact absurd hpos (by decide)
  rw [unsubscribe, eraseCookie_no_match hnm]

/-- C7: On every reachable subscriber-table state, running unsubscribe(c)
twice gives the same observable state as running it once; and on any
state in which no record matches (c.ti, c.id), unsubscribe(c) leaves the
state unchanged (a total function: it signals no error). -/
theorem unsubscribe_idempotent_and_stale_noop (env : TypeEnv) (ops : List Op)
    (c : Cookie) :
    unsubscribe c (unsubscribe c (runOps env initState ops)) =
      unsubscribe c (runOps env initState ops)
    ∧ ∀ st : BusState,
        (∀ e ∈ st.subs, ¬(e.key = c.ti ∧ e.sid = c.id)) →
          unsubscribe c st = st := by
  constructor
  · have hinv := BusInv_run (BusInv_init env) ops
    simp only [unsubscribe]
    rw [eraseCookie_twice hinv.nodup]
  · intro st h
    rw [unsubscribe, eraseCookie_no_match h]

/-- C9: unsubscribe erases at most one record: if no record matches the
cookie the table is unchanged; otherwise the table splits at the first
matching record under the cookie key and exactly that record is removed,
every other record (under this key or any other) surviving with its
relative order preserved. -/
theorem unsubscribe_frame_at_most_one (c : Cookie) (subs : List Entry) :
    ((∀ e ∈ subs, ¬ matchesCookie c e) → eraseCookie c.ti c.id subs = subs)
    ∧ ((∃ e ∈ subs, matchesCookie c e) →
        ∃ pre e post, subs = pre ++ e :: post ∧ matchesCookie c e ∧
          (∀ x ∈ pre, ¬ matchesCookie c x) ∧
          eraseCookie c.ti c.id subs = pre ++ post) := by
  constructor
  · intro h
    exact eraseCookie_no_match (fun e he => h e he)
  · intro h
    rcases exists_first_match h with ⟨pre, e, post, hl, hpe, hpre⟩
    refine ⟨pre, e, post, hl, hpe, hpre, ?_⟩
    rw [hl]
    exact eraseCookie_first c.ti c.id pre e post hpre hpe

/-- Witness for C7 at a concrete reachable state and cookie. -/
theorem unsubscribe_idempotent_and_stale_noop_witness :
    unsubscribe { id := 1, ti := baseTid }
        (unsubscribe { id := 1, ti := baseTid }
          (runOps testEnv initState [Op.sub baseTid, Op.sub derivedTid])) =
      unsubscribe { id := 1, ti := baseTid }
        (runOps testEnv initState [Op.sub baseTid, Op.sub derivedTid])
    ∧ unsubscribe { id := 7, ti := baseTid }
        { subs := [{ key := baseTid, sid := 1,
                     strategy := Strategy.staticCast }], nextId := 2 } =
      { subs := [{ key := baseTid, sid := 1,
                   strategy := Strategy.staticCast }], nextId := 2 } :=
  ⟨(unsubscribe_idempotent_and_stale_noop testEnv
      [Op.sub baseTid, Op.sub derivedTid] { id := 1, ti := baseTid }).1,
   (unsubscribe_idempotent_and_stale_noop testEnv
      [Op.sub baseTid, Op.sub derivedTid] { id := 7, ti := baseTid }).2
      { subs := [{ key := baseTid, sid := 1,
                   strategy := Strategy.staticCast }], nextId := 2 }
      (by decide)⟩

/-- Witness for C9 at a concrete table and cookie holding a match. -/
theorem unsubscribe_frame_at_most_one_witness :
    (∃ e ∈ [{ key := derivedTid, sid := 1,
              strategy := Strategy.staticCast },
            { key := baseTid, sid := 5, strategy := Strategy.staticCast },
            { key := baseTid, sid := 9, strategy := Strategy.staticCast }],
        matchesCookie { id := 5, ti := baseTid } e)
    ∧ ∃ pre e post,
        [{ key := derivedTid, sid := 1, strategy := Strategy.staticCast },
         { key := baseTid, sid := 5, strategy := Strategy.staticCast },
         { key := baseTid, sid := 9, strategy := Strategy.staticCast }] =
          pre ++ e :: post
        ∧ matchesCookie { id := 5, ti := baseTid } e
        ∧ (∀ x ∈ pre, ¬ matchesCookie { id := 5, ti := baseTid } x)
        ∧ eraseCookie baseTid 5
            [{ key := derivedTid, sid := 1,
               strategy := Strategy.staticCast },
             { key := baseTid, sid := 5, strategy := Strategy.staticCast },
             { key := baseTid, sid := 9,
               strategy := Strategy.staticCast }] = pre ++ post :=
  ⟨by decide,
   (unsubscribe_frame_at_most_one { id := 5, ti := baseTid }
      [{ key := derivedTid, sid := 1, strategy := Strategy.staticCast },
       { key := baseTid, sid := 5, strategy := Strategy.staticCast },
       { key := baseTid, sid := 9,
         strategy := Strategy.staticCast }]).2 (by decide)⟩

/-- C1: On every bus state reached by completed subscribe and unsubscribe
operations, a quiescent publish of static type e invokes exactly the
currently-subscribed handlers whose subscription type identifier appears
in the dispatch chain of e, each once per matching chain element, and no
other handler.  The two hypotheses record what the C++ type system
guarantees at the publish instantiation: every element of a declared
dispatch chain is itself a polymorphic event type (it was contributed as
the Self parameter of a polymorphic_event base), and a dynamic_cast of an
object to its own dynamic type succeeds. -/
theorem publish_delivers_exactly_chain_handlers (env : TypeEnv)
    (ops : List Op) (e : TypeId) (view : List TypeId)
    (hpoly : isPolyOf env e = true →
      ∀ k ∈ dispatch_chain env e, isPolyOf env k = true)
    (hcast : isPolyOf env e = false → e ∈ env.castTargets e) :
    (∀ x ∈ (runOps env initState ops).subs,
        countOf x.sid
            (publish env e view (runOps env initState ops).subs) =
          countOf x.key (dispatch_chain env e))
    ∧ ∀ s : Nat, s ∉ (runOps env initState ops).subs.map Entry.sid →
        countOf s (publish env e view (runOps env initState ops).subs) = 0 := by
  have hinv := BusInv_run (BusInv_init env) ops
  constructor
  · intro x hx
    rw [count_publish env e view hinv.nodup hx]
    by_cases hd : delivers (publishView env e view) x = true
    · rw [if_pos hd]
    · rw [if_neg hd]
      symm
      apply countOf_eq_zero_of_not_mem
      intro hmem
      apply hd
      have hstrat := hinv.strat x hx
      by_cases hp : isPolyOf env e = true
      · have hkp := hpoly hp x.key hmem
        have hst : x.strategy = Strategy.staticCast := by
          rw [hstrat, stratOf, if_pos hkp]
        simp [delivers, hst]
      · have hp2 : isPolyOf env e = false := by
          cases hb : isPolyOf env e
          · rfl
          · exact absurd hb hp
        rw [dispatch_chain_nonpoly hp2] at hmem
        rw [publishView_nonpoly hp2]
        rcases List.mem_cons.mp hmem with hk | hk
        · by_cases hka : x.strategy = Strategy.staticCast
          · simp [delivers, hka]
          · have hkd : x.strategy = Strategy.dynamicCast := by
              cases hs : x.strategy
              · exact absurd hs hka
              · rfl
            simp [delivers, hkd, hk]
        · rcases List.mem_singleton.mp hk with rfl
          have hkd : x.strategy = Strategy.dynamicCast := by
            rw [hstrat, stratOf, if_neg (by rw [hp2]; exact Bool.false_ne_true)]
          simp [delivers, hkd]
          exact Or.inr (hcast hp2)
  · intro s hs
    apply countOf_eq_zero_of_not_mem
    intro hmem
    exact hs (mem_publish env e view hmem)

/-- Witness for C1: two subscriptions (base_event then derived_event) and
a publish of derived_event on the test environment. -/
theorem publish_delivers_exactly_chain_handlers_witness :
    (isPolyOf testEnv derivedTid = true →
      ∀ k ∈ dispatch_chain testEnv derivedTid, isPolyOf testEnv k = true)
    ∧ (isPolyOf testEnv derivedTid = false →
        derivedTid ∈ testEnv.castTargets derivedTid)
    ∧ ((∀ x ∈ (runOps testEnv initState
            [Op.sub baseTid, Op.sub derivedTid]).subs,
          countOf x.sid
              (publish testEnv derivedTid [derivedTid, baseTid]
                (runOps testEnv initState
                  [Op.sub baseTid, Op.sub derivedTid]).subs) =
            countOf x.key (dispatch_chain testEnv derivedTid))
      ∧ ∀ s : Nat,
          s ∉ (runOps testEnv initState
              [Op.sub baseTid, Op.sub derivedTid]).subs.map Entry.sid →
            countOf s
                (publish testEnv derivedTid [derivedTid, baseTid]
                  (runOps testEnv initState
                    [Op.sub baseTid, Op.sub derivedTid]).subs) = 0) :=
  ⟨by decide, by decide,
   publish_delivers_exactly_chain_handlers testEnv
     [Op.sub baseTid, Op.sub derivedTid] derivedTid [derivedTid, baseTid]
     (by decide) (by decide)⟩

/-- C4: For a class type e with no declared dispatch chain (it does not
derive detail::event), publishing a value of e delivers only under the
type identifiers of the adapter wrapper and of e itself; a handler
subscribed for a different type p — in particular a declared-chain-free
strict base class of e — is never invoked, while a handler subscribed for
e itself is invoked exactly once (its dynamic_cast from the adapter
object succeeds because the adapter publicly derives e). -/
theorem nonpoly_publish_exact_type_only (env : TypeEnv) (ops : List Op)
    (e p : TypeId) (view : List TypeId)
    (hp : isPolyOf env e = false) (hne : p ≠ e)
    (hna : p ≠ TypeId.adapted e) (hcast : e ∈ env.castTargets e) :
    (∀ x ∈ (runOps env initState ops).subs, x.key = p →
        countOf x.sid
          (publish env e view (runOps env initState ops).subs) = 0)
    ∧ (∀ x ∈ (runOps env initState ops).subs, x.key = e →
        countOf x.sid
          (publish env e view (runOps env initState ops).subs) = 1) := by
  have hinv := BusInv_run (BusInv_init env) ops
  constructor
  · intro x hx hk
    rw [count_publish env e view hinv.nodup hx]
    have hz : countOf x.key (dispatch_chain env e) = 0 := by
      rw [dispatch_chain_nonpoly hp, hk]
      simp [countOf, hne, hna, Ne.symm hne, Ne.symm hna]
    by_cases hd : delivers (publishView env e view) x = true
    · rw [if_pos hd, hz]
    · rw [if_neg hd]
  · intro x hx hk
    rw [count_publish env e view hinv.nodup hx]
    have hkd : x.strategy = Strategy.dynamicCast := by
      rw [hinv.strat x hx, hk, stratOf,
        if_neg (by rw [hp]; exact Bool.false_ne_true)]
    have hd : delivers (publishView env e view) x = true := by
      rw [publishView_nonpoly hp]
      simp [delivers, hkd, hk]
      exact Or.inr hcast
    rw [if_pos hd, dispatch_chain_nonpoly hp, hk]
    simp [countOf, adapted_ne e]

/-- Witness for C4: PlainChild published with a handler for PlainParent
(never invoked) and a handler for PlainChild (invoked once). -/
theorem nonpoly_publish_exact_type_only_witness :
    isPolyOf testEnv plainChildTid = false
    ∧ plainParentTid ≠ plainChildTid
    ∧ plainParentTid ≠ TypeId.adapted plainChildTid
    ∧ plainChildTid ∈ testEnv.castTargets plainChildTid
    ∧ ((∀ x ∈ (runOps testEnv initState
            [Op.sub plainParentTid, Op.sub plainChildTid]).subs,
          x.key = plainParentTid →
          countOf x.sid
            (publish testEnv plainChildTid []
              (runOps testEnv initState
                [Op.sub plainParentTid, Op.sub plainChildTid]).subs) = 0)
      ∧ (∀ x ∈ (runOps testEnv initState
            [Op.sub plainParentTid, Op.sub plainChildTid]).subs,
          x.key = plainChildTid →
          countOf x.sid
            (publish testEnv plainChildTid []
              (runOps testEnv initState
                [Op.sub plainParentTid, Op.sub plainChildTid]).subs) = 1)) :=
  ⟨by decide, by decide, by decide, by decide,
   nonpoly_publish_exact_type_only testEnv
     [Op.sub plainParentTid, Op.sub plainChildTid] plainChildTid
     plainParentTid [] (by decide) (by decide) (by decide) (by decide)⟩

/-- C5: For an event type e declaring a dispatch chain (a nonempty
dispatch_as list, e not recurring past the head in a well-formed
hierarchy), the effective chain equals the declared chain when e is
already its head and the declared chain with e prepended otherwise; e is
at the head and occurs exactly once, so a handler subscribed for e is
delivered to exactly once per publish; the null_t sentinel terminates the
walk and is never delivered to. -/
theorem declared_chain_effective_head_once (env : TypeEnv) (e h : TypeId)
    (tl : Typelist) (hdecl : dispatchAsOf env e = Typelist.cons h tl)
    (hp : isPolyOf env e = true) (hacyc : e ∉ visits tl) :
    ((h = e → chainTl env e = Typelist.cons h tl)
      ∧ (h ≠ e → chainTl env e = Typelist.cons e (Typelist.cons h tl)))
    ∧ (dispatch_chain env e).head? = some e
    ∧ countOf e (dispatch_chain env e) = 1
    ∧ (∀ (subs : List Entry) (view : List TypeId) (x : Entry),
        (subs.map Entry.sid).Nodup → x ∈ subs → x.key = e →
        x.strategy = Strategy.staticCast →
        countOf x.sid (publish env e view subs) = 1)
    ∧ (∀ (subs : List Entry) (view : List TypeId),
        forEachDeliver subs view Typelist.nullt = []) := by
  have hch : chainTl env e = dispatch_typelist e (Typelist.cons h tl) := by
    rw [chainTl, if_pos hp, hdecl]
  have hcount : countOf e (dispatch_chain env e) = 1 := by
    rw [dispatch_chain, hch, dispatch_typelist]
    by_cases hhe : h = e
    · rw [if_pos hhe, hhe]
      simp [visits, countOf, countOf_eq_zero_of_not_mem hacyc]
    · rw [if_neg hhe]
      simp [visits, countOf, countOf_eq_zero_of_not_mem hacyc, hhe]
  refine ⟨⟨?_, ?_⟩, ?_, hcount, ?_, ?_⟩
  · intro hhe
    rw [hch, dispatch_typelist, if_pos hhe]
  · intro hhe
    rw [hch, dispatch_typelist, if_neg hhe]
  · rw [dispatch_chain, hch, dispatch_typelist]
    by_cases hhe : h = e
    · rw [if_pos hhe, hhe]; rfl
    · rw [if_neg hhe]; rfl
  · intro subs view x hnd hx hk hst
    have hpub : publish env e view subs =
        forEachDeliver subs view (chainTl env e) := by
      rw [publish_eq_forEach, publishView_poly hp]
    rw [hpub]
    rw [countOf_forEachDeliver hnd hx (chainTl env e)]
    have hd : delivers view x = true := by simp [delivers, hst]
    rw [if_pos hd, hk]
    exact hcount
  · intro subs view
    rfl

/-- Witness for C5: very_derived_event inherits the dispatch_as of
derived_event, whose head differs from it, so publication prepends it. -/
theorem declared_chain_effective_head_once_witness :
    dispatchAsOf testEnv veryDerivedTid =
      Typelist.cons derivedTid (Typelist.cons baseTid Typelist.nullt)
    ∧ isPolyOf testEnv veryDerivedTid = true
    ∧ veryDerivedTid ∉ visits (Typelist.cons baseTid Typelist.nullt)
    ∧ (((derivedTid = veryDerivedTid →
          chainTl testEnv veryDerivedTid =
            Typelist.cons derivedTid (Typelist.cons baseTid Typelist.nullt))
        ∧ (derivedTid ≠ veryDerivedTid →
            chainTl testEnv veryDerivedTid =
              Typelist.cons veryDerivedTid
                (Typelist.cons derivedTid
                  (Typelist.cons baseTid Typelist.nullt))))
      ∧ (dispatch_chain testEnv veryDerivedTid).head? = some veryDerivedTid
      ∧ countOf veryDerivedTid (dispatch_chain testEnv veryDerivedTid) = 1
      ∧ (∀ (subs : List Entry) (view : List TypeId) (x : Entry),
          (subs.map Entry.sid).Nodup → x ∈ subs → x.key = veryDerivedTid →
          x.strategy = Strategy.staticCast →
          countOf x.sid (publish testEnv veryDerivedTid view subs) = 1)
      ∧ (∀ (subs : List Entry) (view : List TypeId),
          forEachDeliver subs view Typelist.nullt = [])) :=
  ⟨by decide, by decide, by decide,
   declared_chain_effective_head_once testEnv veryDerivedTid derivedTid
     (Typelist.cons baseTid Typelist.nullt) (by decide) (by decide)
     (by decide)⟩

/-- C6: For a cookie returned by subscribe on any bus state satisfying
the reachable-state invariant: performing the unsubscribe immediately
after the subscribe leaves the subscriber table observationally
unchanged (round-trip); and however many completed operations run
between the subscribe and the unsubscribe, once unsubscribe(c) has
returned no subsequent publish — after any further completed
operations — invokes that handler, because identities are never
reassigned to live records. -/
theorem cookie_roundtrip_unsubscribe (env : TypeEnv) (st0 : BusState)
    (hinv : BusInv env st0) (t : TypeId) (opsMid opsAfter : List Op)
    (f : TypeId) (view : List TypeId) :
    (unsubscribe (subscribe env t st0).1 (subscribe env t st0).2).subs =
      st0.subs
    ∧ (subscribe env t st0).1.id ∉
        publish env f view
          (runOps env
            (unsubscribe (subscribe env t st0).1
              (runOps env (subscribe env t st0).2 opsMid))
            opsAfter).subs := by
  have hpre : ∀ x ∈ st0.subs, ¬(x.key = t ∧ x.sid = st0.nextId) := by
    intro x hx hmx
    exact Nat.lt_irrefl st0.nextId (hmx.2 ▸ hinv.bound x hx)
  have h1 : (unsubscribe (subscribe env t st0).1
      (subscribe env t st0).2).subs = st0.subs := by
    show eraseCookie t st0.nextId
        (st0.subs ++ [{ key := t, sid := st0.nextId,
                        strategy := stratOf env t }]) = st0.subs
    rw [eraseCookie_first t st0.nextId st0.subs
      { key := t, sid := st0.nextId, strategy := stratOf env t } []
      hpre ⟨rfl, rfl⟩, List.append_nil]
  refine ⟨h1, ?_⟩
  have hinvMid : BusInv env (runOps env (subscribe env t st0).2 opsMid) :=
    BusInv_run (BusInv_subscribe hinv t) opsMid
  have hkey : ∀ x ∈ (runOps env (subscribe env t st0).2 opsMid).subs,
      x.sid = st0.nextId → x.key = t := by
    intro x hx hs
    have hlow : x.sid < (subscribe env t st0).2.nextId := by
      rw [hs]
      exact Nat.lt_succ_self _
    have hx0 : x ∈ (subscribe env t st0).2.subs :=
      mem_run_low_sid env opsMid (subscribe env t st0).2 x hx hlow
    simp only [subscribe] at hx0
    rcases List.mem_append.mp hx0 with h2 | h2
    · have hb := hinv.bound x h2
      rw [hs] at hb
      exact absurd hb (Nat.lt_irrefl _)
    · rcases List.mem_singleton.mp h2 with rfl
      rfl
  have hgone : st0.nextId ∉
      (unsubscribe (subscribe env t st0).1
        (runOps env (subscribe env t st0).2 opsMid)).subs.map Entry.sid := by
    show st0.nextId ∉ (eraseCookie t st0.nextId
      (runOps env (subscribe env t st0).2 opsMid).subs).map Entry.sid
    exact eraseCookie_sid_gone hinvMid.nodup hkey
  have hx : st0.nextId <
      (unsubscribe (subscribe env t st0).1
        (runOps env (subscribe env t st0).2 opsMid)).nextId := by
    show st0.nextId < (runOps env (subscribe env t st0).2 opsMid).nextId
    exact Nat.lt_of_lt_of_le (Nat.lt_succ_self _)
      (nextId_mono env opsMid (subscribe env t st0).2)
  intro hmem
  exact (fresh_run env opsAfter _ _ hx hgone).2 (mem_publish env f view hmem)

/-- Witness for C6 on a concrete reachable state, with an operation
between the subscribe and the unsubscribe and another after it. -/
theorem cookie_roundtrip_unsubscribe_witness :
    (unsubscribe
        (subscribe testEnv derivedTid
          (runOps testEnv initState [Op.sub baseTid])).1
        (subscribe testEnv derivedTid
          (runOps testEnv initState [Op.sub baseTid])).2).subs =
      (runOps testEnv initState [Op.sub baseTid]).subs
    ∧ (subscribe testEnv derivedTid
        (runOps testEnv initState [Op.sub baseTid])).1.id ∉
        publish testEnv derivedTid [derivedTid, baseTid]
          (runOps testEnv
            (unsubscribe
              (subscribe testEnv derivedTid
                (runOps testEnv initState [Op.sub baseTid])).1
              (runOps testEnv
                (subscribe testEnv derivedTid
                  (runOps testEnv initState [Op.sub baseTid])).2
                [Op.sub baseTid]))
            [Op.sub derivedTid]).subs :=
  cookie_roundtrip_unsubscribe testEnv
    (runOps testEnv initState [Op.sub baseTid])
    (BusInv_run (BusInv_init testEnv) [Op.sub baseTid]) derivedTid
    [Op.sub baseTid] [Op.sub derivedTid] derivedTid [derivedTid, baseTid]

/-- C3 (amended): A publish walks the dispatch-chain elements in order
(most-derived chain element first); within one chain element type key, it
invokes the handlers in the order equal_range yields the records — their
order in the container equivalent-key group, which the standard does not
tie to insertion order.  Over an arbitrary table order, the code path
(for_each_type over the chain, equal_range per key) produces exactly the
chain-major, group-order sequence, and two same-key records are invoked
in their group order, both within the key group and in the publish
output. -/
theorem publish_order_chain_major (env : TypeEnv) (e : TypeId)
    (view : List TypeId) (subs : List Entry) :
    publish env e view subs = equalRangeOrderSpec env e view subs
    ∧ ∀ (k : TypeId) (pre : List Entry) (x1 : Entry) (mid : List Entry)
        (x2 : Entry) (post : List Entry),
        subs = pre ++ x1 :: (mid ++ x2 :: post) →
        x1.key = k → x2.key = k → k ∈ dispatch_chain env e →
        delivers (publishView env e view) x1 = true →
        delivers (publishView env e view) x2 = true →
        List.Sublist [x1.sid, x2.sid]
          (deliverAt subs (publishView env e view) k)
        ∧ List.Sublist [x1.sid, x2.sid] (publish env e view subs) := by
  constructor
  · rw [publish_eq_forEach, forEachDeliver_eq_flatMap, equalRangeOrderSpec,
      dispatch_chain]
    exact congrArg (fun g => (visits (chainTl env e)).flatMap g)
      (funext (fun k => deliverAt_eq subs (publishView env e view) k))
  · intro k pre x1 mid x2 post hsubs hk1 hk2 hkch hd1 hd2
    have hgrp : List.Sublist [x1.sid, x2.sid]
        (deliverAt subs (publishView env e view) k) := by
      rw [deliverAt_eq, hsubs]
      have hp1 : (decide (x1.key = k) &&
          delivers (publishView env e view) x1) = true := by
        simp [hk1, hd1]
      have hp2 : (decide (x2.key = k) &&
          delivers (publishView env e view) x2) = true := by
        simp [hk2, hd2]
      simp only [List.filter_append, List.filter_cons, hp1, hp2, if_pos,
        List.map_append, List.map_cons]
      exact pair_sublist x1.sid x2.sid _ _ _
    refine ⟨hgrp, ?_⟩
    rw [dispatch_chain] at hkch
    rcases forEachDeliver_decompose subs (publishView env e view) k
      (chainTl env e) hkch with ⟨l₁, l₂, hl⟩
    rw [publish_eq_forEach, hl]
    exact hgrp.trans (sublist_middle l₁ _ l₂)

/-- Witness for C3 (amended) on a table shaped by the libstdc++
equal-key placement: the base_event group holds identity 2 before
identity 1, and delivery follows that group order. -/
theorem publish_order_chain_major_witness :
    publish testEnv derivedTid [derivedTid, baseTid]
        [{ key := baseTid, sid := 2, strategy := Strategy.staticCast },
         { key := baseTid, sid := 1, strategy := Strategy.staticCast },
         { key := derivedTid, sid := 7, strategy := Strategy.staticCast }] =
      equalRangeOrderSpec testEnv derivedTid [derivedTid, baseTid]
        [{ key := baseTid, sid := 2, strategy := Strategy.staticCast },
         { key := baseTid, sid := 1, strategy := Strategy.staticCast },
         { key := derivedTid, sid := 7, strategy := Strategy.staticCast }]
    ∧ List.Sublist [2, 1]
        (publish testEnv derivedTid [derivedTid, baseTid]
          [{ key := baseTid, sid := 2, strategy := Strategy.staticCast },
           { key := baseTid, sid := 1, strategy := Strategy.staticCast },
           { key := derivedTid, sid := 7,
             strategy := Strategy.staticCast }]) :=
  ⟨(publish_order_chain_major testEnv derivedTid [derivedTid, baseTid]
      [{ key := baseTid, sid := 2, strategy := Strategy.staticCast },
       { key := baseTid, sid := 1, strategy := Strategy.staticCast },
       { key := derivedTid, sid := 7, strategy := Strategy.staticCast }]).1,
   ((publish_order_chain_major testEnv derivedTid [derivedTid, baseTid]
      [{ key := baseTid, sid := 2, strategy := Strategy.staticCast },
       { key := baseTid, sid := 1, strategy := Strategy.staticCast },
       { key := derivedTid, sid := 7, strategy := Strategy.staticCast }]).2
      baseTid []
      { key := baseTid, sid := 2, strategy := Strategy.staticCast } []
      { key := baseTid, sid := 1, strategy := Strategy.staticCast }
      [{ key := derivedTid, sid := 7, strategy := Strategy.staticCast }]
      rfl rfl rfl (by decide) (by decide) (by decide)).2⟩

/-- C3, counterexample to the claim as stated: identity 1 is subscribed
for base_event before identity 2; std::unordered_multimap does not
preserve insertion order within an equivalent-key group, and under the
libstdc++ placement (new equal-key records link at the group front) the
base_event group holds 2 before 1, so publishing base_event invokes the
handlers as [2, 1] — not the subscription insertion order [1, 2]. -/
theorem publish_within_key_insertion_order_counterexample :
    emplaceStdcxx (emplaceStdcxx []
        { key := baseTid, sid := 1, strategy := Strategy.staticCast })
        { key := baseTid, sid := 2, strategy := Strategy.staticCast } =
      [{ key := baseTid, sid := 2, strategy := Strategy.staticCast },
       { key := baseTid, sid := 1, strategy := Strategy.staticCast }]
    ∧ publish testEnv baseTid [baseTid]
        (emplaceStdcxx (emplaceStdcxx []
            { key := baseTid, sid := 1, strategy := Strategy.staticCast })
            { key := baseTid, sid := 2,
              strategy := Strategy.staticCast }) = [2, 1]
    ∧ ([2, 1] : List Nat) ≠ [1, 2] :=
  ⟨by decide, by decide, by decide⟩
